import Mathlib

/-!
# port-monitor: a shallow embedding of `main.go`

Go strings are modelled as lists of Unicode code points (`Str`); the texts the
program handles are the outputs of `lsof` and `docker`, taken to be valid UTF-8.
External commands are answered by a `Host`, and every command the program runs
is appended to a call log carried in the state.
-/

namespace PortMonitor

/-- Text: a Go string seen as its sequence of runes. -/
abbrev Str := List Char

/-! ## The `strings` and `strconv` functions the program calls -/

/-- Model of `strings.Split(s, sep)` for a one-rune separator: the pieces of `s`
between separators, empty pieces included; never the empty list. -/
def split (sep : Char) : Str → List Str
  | [] => [[]]
  | c :: cs =>
    if c = sep then [] :: split sep cs
    else
      match split sep cs with
      | [] => [[c]]
      | p :: ps => (c :: p) :: ps

/-- Model of `unicode.IsSpace`, which `strings.Fields` uses to delimit fields. -/
def isSpace (c : Char) : Bool :=
  c = '\t' || c = '\n' || c.toNat = 0x0B || c.toNat = 0x0C || c = '\r' || c = ' ' ||
  c.toNat = 0x85 || c.toNat = 0xA0 || c.toNat = 0x1680 ||
  (0x2000 ≤ c.toNat && c.toNat ≤ 0x200A) ||
  c.toNat = 0x2028 || c.toNat = 0x2029 || c.toNat = 0x202F || c.toNat = 0x205F ||
  c.toNat = 0x3000

/-- Scanning loop of `strings.Fields`: `cur` is the field under construction,
kept in reverse. -/
def fieldsAux : Str → Str → List Str
  | [], cur => if cur = [] then [] else [cur.reverse]
  | c :: cs, cur =>
    if isSpace c then
      (if cur = [] then fieldsAux cs [] else cur.reverse :: fieldsAux cs [])
    else fieldsAux cs (c :: cur)

/-- Model of `strings.Fields(s)`: the maximal runs of non-space runes. -/
def fields (s : Str) : List Str := fieldsAux s []

/-- Model of `strings.Contains(s, sub)`. -/
def contains : Str → Str → Bool
  | [], sub => sub.isPrefixOf []
  | c :: cs, sub => sub.isPrefixOf (c :: cs) || contains cs sub

/-- Decimal value of a digit rune, if it is one. -/
def digitVal (c : Char) : Option Nat :=
  if '0' ≤ c ∧ c ≤ '9' then some (c.toNat - '0'.toNat) else none

/-- Outcome of the unsigned scan inside `strconv.ParseInt`. -/
inductive Scan where
  | syntaxErr : Scan
  | rangeErr : Scan
  | val (n : Nat) : Scan
  deriving DecidableEq, Repr

/-- Digit loop of `strconv.ParseUint(s, 10, 64)`: stops with a range error as
soon as the value leaves 64 bits, with a syntax error at a non-digit. -/
def parseUintLoop : Str → Nat → Scan
  | [], n => Scan.val n
  | c :: cs, n =>
    match digitVal c with
    | none => Scan.syntaxErr
    | some d =>
      if n ≥ (2 ^ 64 - 1) / 10 + 1 then Scan.rangeErr
      else if n * 10 + d > 2 ^ 64 - 1 then Scan.rangeErr
      else parseUintLoop cs (n * 10 + d)

/-- Model of `strconv.ParseUint(s, 10, 64)`. -/
def parseUint (s : Str) : Scan :=
  if s = [] then Scan.syntaxErr else parseUintLoop s 0

/-- Value returned by `strconv.Atoi(s)` when its error is discarded
(`a, _ := strconv.Atoi(..)`) on a 64-bit platform: the parsed number,
`0` on a syntax error, the nearest 64-bit bound on a range error. -/
def atoi (s : Str) : Int :=
  if s = [] then 0
  else
    let neg := s.head? = some '-'
    let body := if s.head? = some '+' ∨ s.head? = some '-' then s.tail else s
    match parseUint body with
    | Scan.syntaxErr => 0
    | Scan.rangeErr => if neg then -(2 ^ 63) else 2 ^ 63 - 1
    | Scan.val un =>
      if ¬ neg ∧ un ≥ 2 ^ 63 then 2 ^ 63 - 1
      else if neg ∧ un > 2 ^ 63 then -(2 ^ 63)
      else if neg then -(un : Int) else (un : Int)

/-! ## The host: external commands, clipboard, library tables -/

/-- Order in which `for port := range ports` visits the keys of the map; Go
leaves it unspecified, so it is a parameter, constrained to be a rearrangement
of the keys. -/
structure MapOrder where
  order : List Str → List Str
  perm : ∀ l, (order l).Perm l

/-- Iteration in insertion order. -/
def MapOrder.insertion : MapOrder := ⟨id, fun l => List.Perm.refl l⟩

/-- Iteration in reverse insertion order. -/
def MapOrder.reversed : MapOrder := ⟨List.reverse, fun l => List.reverse_perm l⟩

/-- The Kelvin sign U+212A, whose lower-case form is the letter `k`. -/
def kelvinSign : Char := Char.ofNat 0x212A

/-- The capital I with dot above, U+0130, whose lower-case form is `i`. -/
def dottedI : Char := Char.ofNat 0x130

/-- The long s, U+017F, a third form of the letter `s`; it is its own
lower-case form. -/
def longS : Char := Char.ofNat 0x17F

/-- The lower-case mapping of the Unicode database on non-ASCII runes,
`unicode.To(unicode.LowerCase, r)`. The table is a parameter; what the program
depends on is recorded with it: the Kelvin sign lowers to `k`, the dotted
capital I lowers to `i`, and no other non-ASCII rune lowers to an ASCII one. -/
structure CaseTable where
  lower : Char → Char
  kelvin : lower kelvinSign = 'k'
  dotted : lower dottedI = 'i'
  asciiOnly : ∀ r : Char, 0x7F < r.toNat → (lower r).toNat ≤ 0x7F →
    r = kelvinSign ∨ r = dottedI

/-- A case table that lowers the Kelvin sign and the dotted capital I and
leaves every other rune as it is. -/
def CaseTable.basic : CaseTable :=
  { lower := fun r => if r = kelvinSign then 'k' else if r = dottedI then 'i' else r
    kelvin := by decide
    dotted := by decide
    asciiOnly := by
      intro r h1 h2
      by_cases hk : r = kelvinSign
      · exact Or.inl hk
      · by_cases hd : r = dottedI
        · exact Or.inr hd
        · simp only [if_neg hk, if_neg hd] at h2
          omega }

/-- What the program reaches outside itself.
* `run history argv`: result of `exec.Command(argv...).Run()` with stdout
  captured, given the commands already run: the output, or the error message;
* `lowerTable`: the lower-case mapping of `unicode` on non-ASCII runes;
* `mapOrder`: iteration order of the port map;
* `clipboardWrite`: `clipboard.WriteAll`, `none` on success, else the error. -/
structure Host where
  run : List (List Str) → List Str → Except Str Str
  lowerTable : CaseTable
  mapOrder : MapOrder
  clipboardWrite : Str → Option Str

/-! ## `getPorts` -/

/-- The body of the row loop of `getPorts` for one line: `none` when the index
expression `strings.Split(parts[8], ":")[1]` is out of range (the program
panics), `some none` when the line adds nothing, `some (some p)` when it adds
the key `p` to the map. -/
def portOfLine (line : Str) : Option (Option Str) :=
  if contains line "*".toList then
    let parts := fields line
    if parts.length > 8 then
      match (split ':' (parts.getD 8 [])).get? 1 with
      | none => none
      | some port => some (some port)
    else some none
  else some none

/-- Assignment `ports[port] = struct{}{}` on the key set of the map, kept in
insertion order. -/
def mapInsert (m : List Str) (port : Str) : List Str :=
  if port ∈ m then m else m ++ [port]

/-- The row loop of `getPorts`, from the map `m`; `none` when it panics. -/
def portsLoop : List Str → List Str → Option (List Str)
  | [], m => some m
  | line :: rest, m =>
    match portOfLine line with
    | none => none
    | some none => portsLoop rest m
    | some (some port) => portsLoop rest (mapInsert m port)

/-- The comparison handed to `sort.Slice` in `getPorts`. -/
def portLess (a b : Str) : Bool := decide (atoi a < atoi b)

/-- Model of `sort.Slice(xs, less)` by stable insertion; for a `less` that
compares keys every result Go may produce is obtained from some order of the
input. -/
def sortSlice (less : Str → Str → Bool) (xs : List Str) : List Str :=
  List.insertionSort (fun a b => less b a = false) xs

/-- Part of `getPorts` after a successful `cmd.Run()`, on the captured
output `text`; `none` when the row loop panics. -/
def getPortsFrom (ord : MapOrder) (text : Str) : Option (List Str) :=
  match portsLoop (split '\n' text) [] with
  | none => none
  | some m => some (sortSlice portLess (ord.order m))

/-- Arguments of the enumeration command. -/
def lsofListArgs : List Str := ["lsof".toList, "-iTCP".toList, "-sTCP:LISTEN".toList]

/-- Model of `getPorts`: the list entries, `none` when the program panics. -/
def getPorts (h : Host) (history : List (List Str)) : Option (List Str) :=
  match h.run history lsofListArgs with
  | Except.error err => some ["Error fetching ports: ".toList ++ err]
  | Except.ok out => getPortsFrom h.mapOrder out

/-- The ports taken from the matching rows of `text`, row by row, repetitions
included (rows whose index expression is out of range contribute nothing). -/
def rowPorts (text : Str) : List Str :=
  (split '\n' text).filterMap (fun line => (portOfLine line).join)

/-- Every row of `text` that the loop parses (it contains `*` and has more
than 8 fields) has a `:` in its ninth field. -/
def RowsHaveColon (text : Str) : Prop :=
  ∀ line ∈ split '\n' text, contains line "*".toList = true → (fields line).length > 8 →
    ':' ∈ (fields line).getD 8 []

instance (text : Str) : Decidable (RowsHaveColon text) := by
  unfold RowsHaveColon; infer_instance

/-- Strictly increasing in numeric value. -/
def StrictlyIncreasing (ps : List Str) : Prop :=
  ps.Pairwise (fun a b => atoi a < atoi b)

/-- Non-decreasing in numeric value. -/
def NonDecreasing (ps : List Str) : Prop :=
  ps.Pairwise (fun a b => atoi a ≤ atoi b)

instance (ps : List Str) : Decidable (StrictlyIncreasing ps) := by
  unfold StrictlyIncreasing; infer_instance

instance (ps : List Str) : Decidable (NonDecreasing ps) := by
  unfold NonDecreasing; infer_instance

/-! ## `isDockerProcess` -/

/-- Lower-casing of an ASCII byte, as in the fast paths of `strings.ToLower`
and `unicode.ToLower`: `c += 'a' - 'A'` for `'A' ≤ c ≤ 'Z'`. -/
def asciiLower (c : Char) : Char :=
  if 'A' ≤ c ∧ c ≤ 'Z' then Char.ofNat (c.toNat + ('a'.toNat - 'A'.toNat)) else c

/-- Model of `unicode.ToLower(r)`: ASCII runes directly, the others through
the case table. -/
def unicodeToLower (table : Char → Char) (r : Char) : Char :=
  if r.toNat ≤ 0x7F then asciiLower r else table r

/-- Model of `strings.ToLower(s)`: an ASCII-only string is lowered byte by
byte (and returned as is when it has no upper-case letter), any other string
is mapped rune by rune through `unicode.ToLower`. -/
def toLower (table : Char → Char) (s : Str) : Str :=
  if s.all (fun c => decide (c.toNat < 0x80)) then
    (if s.any (fun c => decide ('A' ≤ c ∧ c ≤ 'Z')) then s.map asciiLower else s)
  else s.map (unicodeToLower table)

/-- The marker looked for in the inspection text. -/
def dockerMarker : Str := "docker".toList

/-- Model of `isDockerProcess`. -/
def isDockerProcess (h : Host) (lsofOut : Str) : Bool :=
  contains (toLower h.lowerTable.lower lsofOut) dockerMarker

/-- The runes that compare equal to the ASCII rune `m` when case is ignored,
by the simple case folding of Unicode (the comparison of `strings.EqualFold`):
`m` itself and, for a letter, its other case; the letters `k` and `s` have a
third form, the Kelvin sign and the long s. -/
def foldOrbit (m : Char) : List Char :=
  if 'a' ≤ m ∧ m ≤ 'z' then
    [m, Char.ofNat (m.toNat - 32)] ++
      (if m = 'k' then [kelvinSign] else if m = 's' then [longS] else [])
  else if 'A' ≤ m ∧ m ≤ 'Z' then
    [m, Char.ofNat (m.toNat + 32)] ++
      (if m = 'K' then [kelvinSign] else if m = 'S' then [longS] else [])
  else [m]

/-- Case-insensitive comparison of a text `w` with an ASCII token `marker`:
they have the same length and each rune of `w` is a case form of the rune of
`marker` at the same place. -/
def EqIgnoringCase (w marker : Str) : Prop :=
  List.Forall₂ (fun r m => r ∈ foldOrbit m) w marker

/-- The token `marker` appears in `text` under case-insensitive comparison:
some run of consecutive runes of `text` compares equal to it. -/
def AppearsIgnoringCase (marker text : Str) : Prop :=
  ∃ pre w post, text = pre ++ w ++ post ∧ EqIgnoringCase w marker

/-! ## `stripAnsiCodes` -/

/-- The escape rune `\x1b`. -/
def esc : Char := Char.ofNat 0x1b

/-- The class `[0-9;]` of the pattern. -/
def isCodeParam (c : Char) : Bool := decide ('0' ≤ c ∧ c ≤ '9') || decide (c = ';')

/-- Length of the match of `\x1b\[[0-9;]*m` anchored at the start of `s`, if
there is one. The rune after the parameters must be `m`, which is not in the
class, so the match takes the whole run of parameters. -/
def matchLen (s : Str) : Option Nat :=
  match s with
  | c0 :: c1 :: rest =>
    if c0 = esc ∧ c1 = '[' then
      match rest.dropWhile isCodeParam with
      | c :: _ => if c = 'm' then some ((rest.takeWhile isCodeParam).length + 3) else none
      | [] => none
    else none
  | _ => none

/-- Model of `re.ReplaceAllString(str, "")`: one pass from the left; at each
position outside a match, a match found there is dropped (`skip` counts the
runes of it still to drop), otherwise the rune is kept. -/
def stripAux : Nat → Str → Str
  | _, [] => []
  | skip + 1, _ :: cs => stripAux skip cs
  | 0, c :: cs =>
    match matchLen (c :: cs) with
    | some n => stripAux (n - 1) cs
    | none => c :: stripAux 0 cs

/-- Model of `stripAnsiCodes`. -/
def stripAnsiCodes (str : Str) : Str := stripAux 0 str

/-- A terminal colour/style escape sequence: ESC, `[`, digits and semicolons,
then `m`. -/
def IsAnsiCode (w : Str) : Prop :=
  ∃ params : Str, w = esc :: '[' :: (params ++ ['m']) ∧ ∀ c ∈ params, isCodeParam c = true

/-- The text `s` contains an escape sequence. -/
def HasAnsiCode (s : Str) : Prop :=
  ∃ pre w post, s = pre ++ w ++ post ∧ IsAnsiCode w

/-- An unterminated start of an escape sequence: ESC alone, or ESC and `[`
followed by digits and semicolons. -/
def IsCodeStart (frag : Str) : Prop :=
  frag = [esc] ∨ ∃ params : Str, frag = esc :: '[' :: params ∧ ∀ c ∈ params, isCodeParam c = true

/-- No unterminated start of an escape sequence stands immediately before an
escape sequence in `text`. -/
def NoStartBeforeCode (text : Str) : Prop :=
  ∀ pre frag code post, text = pre ++ frag ++ code ++ post → IsCodeStart frag →
    ¬ IsAnsiCode code

/-- Whether `x` begins with digits and semicolons followed by `m`, the part
of the pattern after `\x1b\[`. -/
def paramsThenM (x : Str) : Bool :=
  match x.dropWhile isCodeParam with
  | c :: _ => decide (c = 'm')
  | [] => false

/-- Executable search for an unterminated start standing immediately before an
escape sequence. -/
def startBeforeCode : Str → Bool
  | [] => false
  | c :: cs =>
    (decide (c = esc) &&
      ((matchLen cs).isSome ||
        (match cs with
          | d :: x => decide (d = '[') && (matchLen (x.dropWhile isCodeParam)).isSome
          | [] => false))) ||
    startBeforeCode cs

/-! ## The user interface -/

/-- Primitives that can hold the focus; `modalText g` is the text view of the
`g`-th notification created by `showModal`. -/
inductive Widget where
  | portList : Widget
  | lsofOutput : Widget
  | dockerOutput : Widget
  | modalText (g : Nat) : Widget
  deriving DecidableEq, Repr

/-- Root primitive of the application: the three-pane layout `flex`, or the
`g`-th notification. -/
inductive Root where
  | flex : Root
  | modal (g : Nat) : Root
  deriving DecidableEq, Repr

/-- State of the application. -/
structure UI where
  /-- Main texts of the entries of `portList`. -/
  items : List Str
  /-- Index held by `portList` (`GetCurrentItem`). -/
  currentItem : Nat
  /-- Text of the pane `lsofOutput`. -/
  lsofText : Str
  /-- Text of the pane `dockerOutput`. -/
  dockerText : Str
  /-- Number of notifications created so far. -/
  modalCount : Nat
  /-- Text of the latest notification. -/
  modalText : Str
  /-- Title of the latest notification. -/
  modalTitle : Str
  root : Root
  focus : Widget
  /-- Texts handed to `clipboard.WriteAll`, oldest first. -/
  clipboard : List Str
  /-- External commands run so far, oldest first. -/
  calls : List (List Str)
  /-- Whether `app.Stop()` was called. -/
  stopped : Bool

/-- Run an external command: its result comes from the host, the call is
logged. -/
def runCommand (h : Host) (s : UI) (argv : List Str) : Except Str Str × UI :=
  (h.run s.calls argv, { s with calls := s.calls ++ [argv] })

/-- Arguments of the inspection command for `port`. -/
def lsofPortArgs (port : Str) : List Str := ["lsof".toList, "-i".toList, ':' :: port]

/-- Arguments of the container listing for `port`. -/
def dockerArgs (port : Str) : List Str :=
  ["docker".toList, "ps".toList, "-a".toList, "--filter".toList, "publish=".toList ++ port]

/-- Model of `getLsofOutput`. -/
def getLsofOutput (h : Host) (s : UI) (port : Str) : Str × UI :=
  match runCommand h s (lsofPortArgs port) with
  | (Except.error err, s1) => ("Error: ".toList ++ err, s1)
  | (Except.ok out, s1) => (out, s1)

/-- Model of `getDockerInfo`. -/
def getDockerInfo (h : Host) (s : UI) (port : Str) : Str × UI :=
  match runCommand h s (dockerArgs port) with
  | (Except.error err, s1) => ("Error: ".toList ++ err, s1)
  | (Except.ok out, s1) => (out, s1)

/-- The text shown in the container pane for a process that is not Docker's. -/
def notDockerText : Str := "Not a Docker process".toList

/-- The handler given to `portList.SetChangedFunc`; of its arguments only
`mainText` is used. -/
def changed (h : Host) (s : UI) (mainText : Str) : UI :=
  let r := getLsofOutput h s mainText
  let s1 := { r.2 with lsofText := r.1 }
  if isDockerProcess h r.1 then
    let d := getDockerInfo h s1 mainText
    { d.2 with dockerText := d.1 }
  else
    { s1 with dockerText := notDockerText }

/-- Index arithmetic of tview's `List.SetCurrentItem(index)` on a list of
`len` entries: a negative index counts from the end, then the index is clamped
into the list. -/
def clampIndex (len : Nat) (index : Int) : Nat :=
  let n : Int := len
  let i1 := if index < 0 then n + index else index
  let i2 := if i1 ≥ n then n - 1 else i1
  let i3 := if i2 < 0 then 0 else i2
  i3.toNat

/-- Model of tview's `List.SetCurrentItem(index)` with the changed handler
installed: the index is brought into the list, the handler runs on the entry
found there when the index differs from the current one, then the index is
stored. -/
def setCurrentItem (h : Host) (s : UI) (index : Int) : UI :=
  let idx := clampIndex s.items.length index
  let s1 := if idx ≠ s.currentItem then changed h s (s.items.getD idx []) else s
  { s1 with currentItem := idx }

/-- The program up to `app.Run()`: the list is filled with a blank entry and
the result of `getPorts`, the handler is installed, entry 1 is selected, and
the layout becomes the root, which gives the focus to the port list. `none`
when `getPorts` panics. -/
def startup (h : Host) : Option UI :=
  match getPorts h [] with
  | none => none
  | some ports =>
    some (setCurrentItem h
      { items := [] :: ports, currentItem := 0, lsofText := [], dockerText := [],
        modalCount := 0, modalText := [], modalTitle := [], root := Root.flex,
        focus := Widget.portList, clipboard := [], calls := [lsofListArgs],
        stopped := false } 1)

/-- Model of `showModal`: a new notification becomes the root and its text
view takes the focus. -/
def showModal (s : UI) (text title : Str) : UI :=
  { s with modalCount := s.modalCount + 1, modalText := text, modalTitle := title,
           root := Root.modal (s.modalCount + 1),
           focus := Widget.modalText (s.modalCount + 1) }

/-- Result of `focused.(*tview.TextView)` followed by `GetText(false)`: the
text of the focused primitive when it is a text view. -/
def focusedText (s : UI) : Option Str :=
  match s.focus with
  | Widget.portList => none
  | Widget.lsofOutput => some s.lsofText
  | Widget.dockerOutput => some s.dockerText
  | Widget.modalText _ => some s.modalText

/-- The function given to `app.SetInputCapture`, on a `tcell.KeyRune` event
carrying the rune `r`. The boolean tells whether the event is returned
(`true`) or replaced by `nil` (`false`). -/
def appInputCapture (h : Host) (s : UI) (r : Char) : Bool × UI :=
  if r = 'h' then (false, { s with focus := Widget.portList })
  else if r = 'l' then (false, { s with focus := Widget.lsofOutput })
  else if r = 'j' then
    if s.focus = Widget.portList then
      (if (s.currentItem : Int) < (s.items.length : Int) - 1 then
        (true, setCurrentItem h s ((s.currentItem : Int) + 1))
      else (true, s))
    else (true, { s with focus := Widget.dockerOutput })
  else if r = 'k' then
    if s.focus = Widget.portList then
      (if (s.currentItem : Int) > 0 then
        (true, setCurrentItem h s ((s.currentItem : Int) - 1))
      else (true, s))
    else (true, { s with focus := Widget.lsofOutput })
  else if r = 'q' then (true, { s with stopped := true })
  else if r = 'c' then
    match focusedText s with
    | none => (true, s)
    | some raw =>
      let text := stripAnsiCodes raw
      let s1 := { s with clipboard := s.clipboard ++ [text] }
      match h.clipboardWrite text with
      | some err =>
        (true, showModal s1 ("Error copying to clipboard: \n".toList ++ err)
          "Clipboard Error".toList)
      | none => (true, showModal s1 "Copied to clipboard".toList "Clipboard".toList)
  else (true, s)

/-- Model of `root.HasFocus()`: the layout has the focus when one of its three
panes has it, a notification when its text view has it. -/
def rootHasFocus (root : Root) (focus : Widget) : Bool :=
  match root, focus with
  | Root.flex, Widget.modalText _ => false
  | Root.flex, _ => true
  | Root.modal g, Widget.modalText g2 => decide (g = g2)
  | Root.modal _, _ => false

/-- Model of tview's `List.InputHandler` on a rune key: a space selects the
current entry (no selected handler is installed), any other rune is looked up
among the shortcuts, which are all `0` here, so that only the rune `0` finds
an entry, the first one. -/
def listInputHandler (h : Host) (s : UI) (r : Char) : UI :=
  if s.items = [] then s
  else if r = ' ' then s
  else if r.toNat = 0 then
    (if s.currentItem ≠ 0 then
      changed h { s with currentItem := 0 } (s.items.getD 0 [])
    else s)
  else s

/-- The input capture installed by `showModal` on the notification's text
view: `app.SetRoot(flex, true)`, which hands the focus to the first focusable
item of the layout, the port list; the event is dropped. -/
def modalInputCapture (s : UI) : UI :=
  { s with root := Root.flex, focus := Widget.portList }

/-- One `tcell.KeyRune` event through tview's event loop: the application's
input capture runs first; if it returns the event, the event goes to the root
read before the capture, provided that root has the focus, and from there to
the focused primitive (text views only scroll). -/
def handleRune (h : Host) (s : UI) (r : Char) : UI :=
  let c := appInputCapture h s r
  if c.1 = false then c.2
  else if rootHasFocus s.root c.2.focus then
    match s.root with
    | Root.modal _ => modalInputCapture c.2
    | Root.flex =>
      match c.2.focus with
      | Widget.portList => listInputHandler h c.2 r
      | _ => c.2
  else c.2

/-- A notification is visible. -/
def modalVisible (s : UI) : Bool :=
  match s.root with
  | Root.modal _ => true
  | Root.flex => false

/-- The text `getLsofOutput` returns for `port` when the commands in `history`
have been run: the output of the inspection command, or its error message. -/
def inspectionText (h : Host) (history : List (List Str)) (port : Str) : Str :=
  match h.run history (lsofPortArgs port) with
  | Except.error err => "Error: ".toList ++ err
  | Except.ok out => out

/-- The text `getDockerInfo` returns for `port` when the commands in `history`
have been run. -/
def containerText (h : Host) (history : List (List Str)) (port : Str) : Str :=
  match h.run history (dockerArgs port) with
  | Except.error err => "Error: ".toList ++ err
  | Except.ok out => out

/-- The commands one run of the changed handler adds to the log for an entry
with text `t`: the inspection, then the container listing when the inspection
text is Docker-related. -/
def selectionCalls (h : Host) (history : List (List Str)) (t : Str) : List (List Str) :=
  lsofPortArgs t ::
    (if isDockerProcess h (inspectionText h history t) then [dockerArgs t] else [])

/-- The commands the initial selection of index 1 adds to the log, for the
entries `ports` under the spacer: those of the handler on the first entry, none
when there is no entry. -/
def firstSelectionCalls (h : Host) : List Str → List (List Str)
  | [] => []
  | p :: _ => selectionCalls h [lsofListArgs] p

/-- A state with three entries under the spacer, the first one selected and
the port list focused. -/
def sampleUI : UI :=
  { items := [[], "22".toList, "80".toList, "8080".toList], currentItem := 1,
    lsofText := [], dockerText := [], modalCount := 0, modalText := [], modalTitle := [],
    root := Root.flex, focus := Widget.portList, clipboard := [],
    calls := [lsofListArgs], stopped := false }

/-! ## Sample hosts -/

/-- A host whose enumeration command prints `listing`, whose other commands
fail with `exit status 1`, whose case table is the basic one and whose clipboard
accepts everything. -/
def listingHost (listing : Str) (ord : MapOrder) : Host :=
  { run := fun _ argv =>
      if argv = lsofListArgs then Except.ok listing
      else Except.error "exit status 1".toList
    lowerTable := CaseTable.basic
    mapOrder := ord
    clipboardWrite := fun _ => none }

/-- A host on which every command fails with `exit status 1`. -/
def failingHost : Host :=
  { run := fun _ _ => Except.error "exit status 1".toList
    lowerTable := CaseTable.basic
    mapOrder := MapOrder.insertion
    clipboardWrite := fun _ => none }

/-- A host with one port, 8080, held by `docker-proxy`. -/
def dockerHost : Host :=
  { run := fun _ argv =>
      if argv = lsofListArgs then
        Except.ok "docker-pr 9 root 4u IPv4 0x1 0t0 TCP *:8080 (LISTEN)".toList
      else if argv = lsofPortArgs "8080".toList then
        Except.ok "docker-pr 9 root 4u IPv4 0x1 0t0 TCP *:8080 (LISTEN)".toList
      else if argv = dockerArgs "8080".toList then
        Except.ok "c0ffee nginx 0.0.0.0:8080->80/tcp web".toList
      else Except.error "exit status 1".toList
    lowerTable := CaseTable.basic
    mapOrder := MapOrder.insertion
    clipboardWrite := fun _ => none }

/-- An `lsof` listing with two sockets on port 8080 and one on port 22. -/
def numericListing : Str :=
  ("COMMAND PID USER FD TYPE DEVICE SIZE/OFF NODE NAME\n" ++
   "nginx 1 root 6u IPv4 0x1 0t0 TCP *:8080 (LISTEN)\n" ++
   "nginx 1 root 7u IPv6 0x2 0t0 TCP *:8080 (LISTEN)\n" ++
   "sshd 2 root 3u IPv4 0x3 0t0 TCP *:22 (LISTEN)\n").toList

/-- An `lsof` listing that names its ports by service, as `lsof` does without
`-P`. -/
def serviceListing : Str :=
  ("COMMAND PID USER FD TYPE DEVICE SIZE/OFF NODE NAME\n" ++
   "nginx 1 root 6u IPv4 0x1 0t0 TCP *:http (LISTEN)\n" ++
   "nginx 1 root 7u IPv4 0x2 0t0 TCP *:https (LISTEN)\n").toList

/-- A listing with a row that contains `*` and has ten fields, the ninth
without a colon. -/
def colonlessListing : Str :=
  ("COMMAND PID USER FD TYPE DEVICE SIZE/OFF NODE NAME\n" ++
   "proxy 7 root 3u IPv4 0x1 0t0 TCP * (LISTEN)\n").toList

/-- A state whose process pane, focused, holds `text`. -/
def paneUI (text : Str) : UI :=
  { items := [[], "22".toList], currentItem := 1, lsofText := text, dockerText := [],
    modalCount := 0, modalText := [], modalTitle := [], root := Root.flex,
    focus := Widget.lsofOutput, clipboard := [], calls := [lsofListArgs],
    stopped := false }

/-- The state reached on `dockerHost` by moving the focus to the process pane
(`l`) and copying it (`c`): the notification is showing. -/
def afterCopy : Option UI :=
  (startup dockerHost).map (fun s => handleRune dockerHost (handleRune dockerHost s 'l') 'c')

/-! ## Facts about the row loop and the sort -/

theorem mapInsert_nodup {m : List Str} (p : Str) (hm : m.Nodup) : (mapInsert m p).Nodup := by
  unfold mapInsert
  split
  · exact hm
  · rename_i hp
    exact List.nodup_append.mpr ⟨hm, List.nodup_singleton p, by
      intro a ha hb
      simp at hb
      subst hb
      exact hp ha⟩

theorem mem_mapInsert {m : List Str} {p q : Str} : q ∈ mapInsert m p ↔ q ∈ m ∨ q = p := by
  unfold mapInsert
  split
  · rename_i hp
    constructor
    · intro h; exact Or.inl h
    · rintro (h | h)
      · exact h
      · subst h; exact hp
  · simp

theorem portsLoop_nodup : ∀ (lines : List Str) (m m2 : List Str),
    m.Nodup → portsLoop lines m = some m2 → m2.Nodup
  | [], m, m2, hm, h => by
    simp [portsLoop] at h
    subst h; exact hm
  | line :: rest, m, m2, hm, h => by
    unfold portsLoop at h
    split at h
    · exact absurd h (by simp)
    · exact portsLoop_nodup rest m m2 hm h
    · exact portsLoop_nodup rest _ m2 (mapInsert_nodup _ hm) h

theorem portsLoop_mem : ∀ (lines : List Str) (m m2 : List Str),
    portsLoop lines m = some m2 →
    ∀ q, q ∈ m2 ↔ q ∈ m ∨ q ∈ lines.filterMap (fun line => (portOfLine line).join)
  | [], m, m2, h, q => by
    simp [portsLoop] at h
    subst h; simp
  | line :: rest, m, m2, h, q => by
    unfold portsLoop at h
    split at h
    · exact absurd h (by simp)
    · rename_i hl
      rw [portsLoop_mem rest m m2 h q, List.filterMap_cons]
      simp [hl]
    · rename_i port hl
      rw [portsLoop_mem rest _ m2 h q, List.filterMap_cons, mem_mapInsert]
      simp [hl]
      tauto

theorem count_eq_one_of_nodup : ∀ (l : List Str) (p : Str), l.Nodup → p ∈ l → l.count p = 1
  | [], _, _, h => absurd h (List.not_mem_nil _)
  | x :: xs, p, hnd, h => by
    rw [List.nodup_cons] at hnd
    rw [List.count_cons]
    by_cases hx : x = p
    · subst hx
      simp [List.count_eq_zero_of_not_mem hnd.1]
    · have hp : p ∈ xs := by
        rcases List.mem_cons.mp h with h1 | h1
        · exact absurd h1.symm hx
        · exact h1
      simp [hx, count_eq_one_of_nodup xs p hnd.2 hp]

theorem split_ne_nil (sep : Char) : ∀ s : Str, split sep s ≠ []
  | [] => by simp [split]
  | c :: cs => by
    unfold split
    split
    · simp
    · split <;> simp

theorem split_get_one_of_mem (sep : Char) : ∀ s : Str, sep ∈ s →
    ∃ p, (split sep s).get? 1 = some p
  | [], hs => absurd hs (List.not_mem_nil _)
  | c :: cs, hs => by
    unfold split
    split
    · cases hsp : split sep cs with
      | nil => exact absurd hsp (split_ne_nil sep cs)
      | cons q qs => exact ⟨q, rfl⟩
    · rename_i hc
      have hcs : sep ∈ cs := by
        rcases List.mem_cons.mp hs with h1 | h1
        · exact absurd h1.symm hc
        · exact h1
      obtain ⟨p, hp⟩ := split_get_one_of_mem sep cs hcs
      cases hsp : split sep cs with
      | nil => exact absurd hsp (split_ne_nil sep cs)
      | cons q qs =>
        rw [hsp] at hp
        exact ⟨p, hp⟩

theorem portOfLine_ne_none (line : Str)
    (hrow : contains line "*".toList = true → (fields line).length > 8 →
      ':' ∈ (fields line).getD 8 []) :
    portOfLine line ≠ none := by
  unfold portOfLine
  split
  · rename_i hstar
    simp only []
    split
    · rename_i hlen
      obtain ⟨p, hp⟩ := split_get_one_of_mem ':' _ (hrow hstar hlen)
      rw [hp]
      simp
    · simp
  · simp

theorem portsLoop_returns : ∀ (lines : List Str) (m : List Str),
    (∀ line ∈ lines, portOfLine line ≠ none) → ∃ m2, portsLoop lines m = some m2
  | [], m, _ => ⟨m, rfl⟩
  | line :: rest, m, hall => by
    have hrest : ∀ l ∈ rest, portOfLine l ≠ none :=
      fun l hl => hall l (List.mem_cons_of_mem _ hl)
    unfold portsLoop
    split
    · rename_i hnone
      exact absurd hnone (hall line (List.mem_cons_self _ _))
    · exact portsLoop_returns rest m hrest
    · exact portsLoop_returns rest _ hrest

theorem getPortsFrom_returns (ord : MapOrder) (text : Str) (hrows : RowsHaveColon text) :
    ∃ out, getPortsFrom ord text = some out := by
  obtain ⟨m, hm⟩ := portsLoop_returns (split '\n' text) []
    (fun line hl => portOfLine_ne_none line (hrows line hl))
  unfold getPortsFrom
  rw [hm]
  exact ⟨_, rfl⟩

theorem sortSlice_perm (xs : List Str) : (sortSlice portLess xs).Perm xs :=
  List.perm_insertionSort _ xs

theorem sortSlice_nonDecreasing (xs : List Str) : NonDecreasing (sortSlice portLess xs) := by
  have total : IsTotal Str (fun a b => portLess b a = false) :=
    ⟨fun a b => by simp only [portLess, decide_eq_false_iff_not, not_lt]; exact le_total _ _⟩
  have trans : IsTrans Str (fun a b => portLess b a = false) :=
    ⟨fun a b c => by
      simp only [portLess, decide_eq_false_iff_not, not_lt]; exact le_trans⟩
  have h := List.sorted_insertionSort (fun a b => portLess b a = false) xs
  unfold NonDecreasing sortSlice
  refine List.Pairwise.imp ?_ h
  intro a b hab
  simpa [portLess] using hab

/-- What `getPortsFrom` returns, whenever it returns. -/
theorem getPortsFrom_spec (ord : MapOrder) (text : Str) (out : List Str)
    (h : getPortsFrom ord text = some out) :
    out.Nodup ∧ (∀ p, p ∈ out ↔ p ∈ rowPorts text) ∧ NonDecreasing out := by
  unfold getPortsFrom at h
  split at h
  · exact absurd h (by simp)
  · rename_i m hm
    simp only [Option.some.injEq] at h
    subst h
    have hperm : (sortSlice portLess (ord.order m)).Perm m :=
      (sortSlice_perm _).trans (ord.perm m)
    refine ⟨hperm.nodup_iff.mpr (portsLoop_nodup _ [] m List.nodup_nil hm), ?_,
      sortSlice_nonDecreasing _⟩
    intro p
    rw [hperm.mem_iff, portsLoop_mem _ [] m hm p]
    simp [rowPorts]

/-! ## Facts about `strings.Contains` and `strings.ToLower` -/

theorem contains_iff_occurs : ∀ (s sub : Str), contains s sub = true ↔ sub <:+: s
  | [], sub => by
    simp [contains, List.isPrefixOf_iff_prefix]
  | c :: cs, sub => by
    rw [contains, Bool.or_eq_true, List.isPrefixOf_iff_prefix, contains_iff_occurs cs sub,
      List.infix_cons_iff]

theorem asciiLower_of_not_upper (c : Char) (hc : ¬ ('A' ≤ c ∧ c ≤ 'Z')) : asciiLower c = c := by
  unfold asciiLower
  rw [if_neg hc]

theorem unicodeToLower_ascii (table : Char → Char) (c : Char) (hc : c.toNat < 0x80) :
    unicodeToLower table c = asciiLower c := by
  unfold unicodeToLower
  rw [if_pos (by omega)]

theorem toLower_eq_map (table : Char → Char) (s : Str) :
    toLower table s = s.map (unicodeToLower table) := by
  unfold toLower
  split
  · rename_i hascii
    have hmap : s.map (unicodeToLower table) = s.map asciiLower := by
      apply List.map_congr_left
      intro c hc
      have := List.all_eq_true.mp hascii c hc
      exact unicodeToLower_ascii table c (by simpa using this)
    rw [hmap]
    split
    · rfl
    · rename_i hup
      have hfix : s.map asciiLower = s.map id := by
        apply List.map_congr_left
        intro c hc
        apply asciiLower_of_not_upper
        intro hcu
        apply hup
        exact List.any_eq_true.mpr ⟨c, hc, by simpa using hcu⟩
      rw [hfix, List.map_id]
  · rfl

theorem asciiLower_eq_marker_iff : ∀ n : Nat, n < 128 → ∀ m ∈ dockerMarker,
    (asciiLower (Char.ofNat n) = m ↔ Char.ofNat n ∈ foldOrbit m) := by
  decide

theorem marker_rune_cases (m : Char) (hm : m ∈ dockerMarker) :
    m = 'd' ∨ m = 'o' ∨ m = 'c' ∨ m = 'k' ∨ m = 'e' ∨ m = 'r' := by
  simp only [dockerMarker, String.toList, List.mem_cons, List.mem_singleton,
    List.not_mem_nil, or_false] at hm
  tauto

theorem lower_eq_marker_iff (t : CaseTable) (r m : Char) (hm : m ∈ dockerMarker) :
    unicodeToLower t.lower r = m ↔ r ∈ foldOrbit m := by
  by_cases hr : r.toNat ≤ 0x7F
  · have h := asciiLower_eq_marker_iff r.toNat (by omega) m hm
    rw [Char.ofNat_toNat] at h
    unfold unicodeToLower
    rw [if_pos hr]
    exact h
  · have hbig : 0x7F < r.toNat := by omega
    unfold unicodeToLower
    rw [if_neg hr]
    constructor
    · intro hlow
      have hascii : (t.lower r).toNat ≤ 0x7F := by
        rw [hlow]
        rcases marker_rune_cases m hm with h | h | h | h | h | h <;> rw [h] <;> decide
      rcases t.asciiOnly r hbig hascii with hk | hd
      · rw [hk, t.kelvin] at hlow
        rw [hk, ← hlow]
        decide
      · rw [hd, t.dotted] at hlow
        rw [← hlow] at hm
        exact absurd hm (by decide)
    · intro hmem
      rcases marker_rune_cases m hm with h | h | h | h | h | h <;> rw [h] at hmem ⊢
      all_goals
        simp only [foldOrbit] at hmem
        first
        | (have hx : r = 'k' ∨ r = 'K' ∨ r = kelvinSign := by simpa using hmem
           rcases hx with hx | hx | hx
           · rw [hx] at hbig; exact absurd hbig (by decide)
           · rw [hx] at hbig; exact absurd hbig (by decide)
           · rw [hx]; exact t.kelvin)
        | (have hx : r.toNat ≤ 0x7F := by
             have hx2 := hmem
             simp at hx2
             rcases hx2 with hx2 | hx2 <;> rw [hx2] <;> decide
           omega)

theorem map_eq_marker_iff (t : CaseTable) : ∀ (w marker : Str),
    (∀ m ∈ marker, m ∈ dockerMarker) →
    (w.map (unicodeToLower t.lower) = marker ↔ EqIgnoringCase w marker)
  | [], [], _ => by simp [EqIgnoringCase]
  | [], _ :: _, _ => by simp [EqIgnoringCase]
  | _ :: _, [], _ => by simp [EqIgnoringCase]
  | r :: w, m :: marker, hall => by
    have hm : m ∈ dockerMarker := hall m (List.mem_cons_self _ _)
    have hrest : ∀ x ∈ marker, x ∈ dockerMarker :=
      fun x hx => hall x (List.mem_cons_of_mem _ hx)
    have ih := map_eq_marker_iff t w marker hrest
    unfold EqIgnoringCase at ih ⊢
    rw [List.map_cons, List.cons.injEq, List.forall₂_cons, lower_eq_marker_iff t r m hm, ih]

/-! ## Facts about the pattern match and the replacement pass -/

theorem matchLen_of_code (w rest : Str) (hw : IsAnsiCode w) :
    matchLen (w ++ rest) = some w.length := by
  obtain ⟨params, rfl, hp⟩ := hw
  have hdrop : List.dropWhile isCodeParam (params ++ ['m'] ++ rest) = 'm' :: rest := by
    rw [List.append_assoc, List.dropWhile_append_of_pos hp]
    rfl
  have htake : List.takeWhile isCodeParam (params ++ ['m'] ++ rest) = params := by
    rw [List.append_assoc, List.takeWhile_append_of_pos hp]
    simp [List.takeWhile, isCodeParam]
  show matchLen (esc :: '[' :: (params ++ ['m'] ++ rest)) = _
  simp only [matchLen, hdrop, htake]
  simp

theorem code_of_matchLen (s : Str) (n : Nat) (h : matchLen s = some n) :
    ∃ w rest, s = w ++ rest ∧ IsAnsiCode w := by
  match s, h with
  | c0 :: c1 :: tl, h =>
    simp only [matchLen] at h
    split at h
    · rename_i hc
      split at h
      · rename_i c rest2 hd
        split at h
        · rename_i hm
          refine ⟨esc :: '[' :: (List.takeWhile isCodeParam tl ++ ['m']), rest2, ?_, ?_⟩
          · have := List.takeWhile_append_dropWhile isCodeParam tl
            rw [hd, hm] at this
            rw [hc.1, hc.2]
            simp [this]
          · refine ⟨List.takeWhile isCodeParam tl, rfl, ?_⟩
            intro c hc2
            exact (List.mem_takeWhile_imp hc2)
        · exact absurd h (by simp)
      · exact absurd h (by simp)
    · exact absurd h (by simp)

theorem stripAux_drop : ∀ (s : Str) (k : Nat), stripAux k s = stripAux 0 (s.drop k)
  | [], k => by simp [stripAux]
  | _ :: _, 0 => by simp
  | _ :: cs, k + 1 => by
    rw [stripAux, List.drop_succ_cons]
    exact stripAux_drop cs k

theorem noStart_suffix (a b : Str) (h : NoStartBeforeCode (a ++ b)) :
    NoStartBeforeCode b := by
  intro pre frag code post hb
  exact h (a ++ pre) frag code post (by rw [hb]; simp [List.append_assoc])

theorem matchLen_of_ne_esc (c : Char) (cs : Str) (hc : c ≠ esc) : matchLen (c :: cs) = none := by
  cases cs with
  | nil => rfl
  | cons d ds => simp [matchLen, hc]

theorem matchLen_of_ne_bracket (d : Char) (ds : Str) (hd : d ≠ '[') :
    matchLen (esc :: d :: ds) = none := by
  simp [matchLen, hd]

theorem matchLen_bracket (x : Str) (hx : paramsThenM x = false) :
    matchLen (esc :: '[' :: x) = none := by
  unfold paramsThenM at hx
  simp only [matchLen, and_self, if_true]
  split
  · rename_i c rest hd
    rw [hd] at hx
    simp only [decide_eq_false_iff_not] at hx
    rw [if_neg hx]
  · rfl

theorem paramsThenM_of_matchLen (x : Str) (hx : matchLen (esc :: '[' :: x) = none) :
    paramsThenM x = false := by
  unfold paramsThenM
  simp only [matchLen, and_self, if_true] at hx
  split
  · rename_i c rest hd
    rw [hd] at hx
    by_cases hc : c = 'm'
    · simp [hc] at hx
    · simpa using hc
  · rfl

theorem paramsThenM_cons (d : Char) (x : Str) :
    paramsThenM (d :: x) = if isCodeParam d = true then paramsThenM x else decide (d = 'm') := by
  unfold paramsThenM
  by_cases hd : isCodeParam d = true
  · rw [if_pos hd, List.dropWhile_cons_of_pos hd]
  · rw [if_neg hd, List.dropWhile_cons_of_neg hd]

theorem paramsThenM_stripAux : ∀ rest : Str,
    (∀ ps code post, rest = ps ++ code ++ post → (∀ c ∈ ps, isCodeParam c = true) →
      ¬ IsAnsiCode code) →
    paramsThenM rest = false → paramsThenM (stripAux 0 rest) = false
  | [], _, _ => rfl
  | d :: ds, hno, hp => by
    rw [stripAux]
    split
    · rename_i k hk
      obtain ⟨w, rest2, hw, hcode⟩ := code_of_matchLen _ k hk
      exact absurd hcode (hno [] w rest2 (by rw [hw]; rfl) (by simp))
    · rw [paramsThenM_cons] at hp ⊢
      by_cases hd : isCodeParam d = true
      · rw [if_pos hd] at hp ⊢
        apply paramsThenM_stripAux ds _ hp
        intro ps code post hds hps
        apply hno (d :: ps) code post (by rw [hds]; rfl)
        intro c hc
        rcases List.mem_cons.mp hc with h1 | h1
        · rw [h1]; exact hd
        · exact hps c h1
      · rw [if_neg hd] at hp ⊢
        exact hp

theorem matchLen_cons_stripAux (c : Char) (cs : Str) (hm : matchLen (c :: cs) = none)
    (hwf : NoStartBeforeCode (c :: cs)) : matchLen (c :: stripAux 0 cs) = none := by
  by_cases hc : c = esc
  · subst hc
    cases cs with
    | nil => rfl
    | cons d ds =>
      rw [stripAux]
      split
      · rename_i k hk
        obtain ⟨w, rest2, hw, hcode⟩ := code_of_matchLen _ k hk
        exact absurd hcode
          (hwf [] [esc] w rest2 (by rw [hw]; rfl) (Or.inl rfl))
      · by_cases hd : d = '['
        · subst hd
          apply matchLen_bracket
          apply paramsThenM_stripAux ds _ (paramsThenM_of_matchLen ds hm)
          intro ps code post hds hps
          exact hwf [] (esc :: '[' :: ps) code post (by rw [hds]; rfl)
            (Or.inr ⟨ps, rfl, hps⟩)
        · exact matchLen_of_ne_bracket d _ hd
  · exact matchLen_of_ne_esc c _ hc

theorem no_match_in_stripAux : ∀ (n : Nat) (s : Str), s.length ≤ n →
    NoStartBeforeCode s → ∀ pre u, stripAux 0 s = pre ++ u → matchLen u = none
  | _, [], _, _, pre, u, h => by
    rw [stripAux] at h
    have hu : u = [] := (List.append_eq_nil.mp h.symm).2
    rw [hu]
    rfl
  | 0, _ :: _, hlen, _, _, _, _ => by simp at hlen
  | n + 1, c :: cs, hlen, hwf, pre, u, h => by
    have hlen2 : cs.length ≤ n := by simpa using hlen
    rw [stripAux] at h
    split at h
    · rename_i k hk
      rw [stripAux_drop] at h
      apply no_match_in_stripAux n (cs.drop (k - 1)) _ _ pre u h
      · rw [List.length_drop]; omega
      · apply noStart_suffix (c :: cs.take (k - 1))
        rw [List.cons_append, List.take_append_drop]
        exact hwf
    · rename_i hnone
      cases pre with
      | nil =>
        rw [List.nil_append] at h
        rw [← h]
        exact matchLen_cons_stripAux c cs hnone hwf
      | cons p pre2 =>
        rw [List.cons_append, List.cons.injEq] at h
        exact no_match_in_stripAux n cs hlen2 (noStart_suffix [c] cs hwf) pre2 u h.2

theorem isCodeParam_esc : isCodeParam esc = false := by decide

theorem matchLen_code_after_params (ps code post : Str)
    (hps : ∀ c ∈ ps, isCodeParam c = true) (hcode : IsAnsiCode code) :
    (matchLen (List.dropWhile isCodeParam (ps ++ (code ++ post)))).isSome = true := by
  rw [List.dropWhile_append_of_pos hps]
  have hm := matchLen_of_code code post hcode
  obtain ⟨params, hw, _⟩ := hcode
  have hdrop : List.dropWhile isCodeParam (code ++ post) = code ++ post := by
    rw [hw]
    exact List.dropWhile_cons_of_neg (by rw [isCodeParam_esc]; simp)
  rw [hdrop, hm]
  rfl

theorem noStart_of_check : ∀ (s : Str), startBeforeCode s = false → NoStartBeforeCode s
  | [], _ => by
    intro pre frag code post h _ hcode
    obtain ⟨params, hw, _⟩ := hcode
    rw [hw] at h
    simp at h
  | c :: cs, hchk => by
    simp only [startBeforeCode, Bool.or_eq_false_iff, Bool.and_eq_false_iff] at hchk
    obtain ⟨hhere, hrest⟩ := hchk
    intro pre frag code post h hfrag hcode
    cases pre with
    | cons p pre2 =>
      simp only [List.cons_append, List.cons.injEq] at h
      exact noStart_of_check cs hrest pre2 frag code post h.2 hfrag hcode
    | nil =>
      rw [List.nil_append] at h
      rcases hfrag with hf | ⟨ps, hf, hps⟩
      · rw [hf] at h
        simp only [List.cons_append, List.nil_append, List.cons.injEq] at h
        rcases hhere with h1 | h1
        · exact absurd h.1 (by simpa using h1)
        · have hm := matchLen_of_code code post hcode
          rw [h.2, hm] at h1
          simp at h1
      · rw [hf] at h
        simp only [List.cons_append, List.cons.injEq, List.append_assoc] at h
        rcases hhere with h1 | h1
        · exact absurd h.1 (by simpa using h1)
        · rw [h.2] at h1
          have hm := matchLen_code_after_params ps code post hps hcode
          simp [hm] at h1

/-! ## Facts about the handlers -/

theorem getLsofOutput_eq (h : Host) (s : UI) (port : Str) :
    getLsofOutput h s port
      = (inspectionText h s.calls port, { s with calls := s.calls ++ [lsofPortArgs port] }) := by
  unfold getLsofOutput runCommand inspectionText
  cases h.run s.calls (lsofPortArgs port) <;> rfl

theorem getDockerInfo_eq (h : Host) (s : UI) (port : Str) :
    getDockerInfo h s port
      = (containerText h s.calls port, { s with calls := s.calls ++ [dockerArgs port] }) := by
  unfold getDockerInfo runCommand containerText
  cases h.run s.calls (dockerArgs port) <;> rfl

theorem changed_eq (h : Host) (s : UI) (t : Str) :
    changed h s t =
      if isDockerProcess h (inspectionText h s.calls t) then
        { s with lsofText := inspectionText h s.calls t,
                 dockerText := containerText h (s.calls ++ [lsofPortArgs t]) t,
                 calls := s.calls ++ [lsofPortArgs t] ++ [dockerArgs t] }
      else
        { s with lsofText := inspectionText h s.calls t,
                 dockerText := notDockerText,
                 calls := s.calls ++ [lsofPortArgs t] } := by
  unfold changed
  simp only [getLsofOutput_eq, getDockerInfo_eq]

theorem changed_frame (h : Host) (s : UI) (t : Str) :
    (changed h s t).items = s.items ∧ (changed h s t).currentItem = s.currentItem ∧
      (changed h s t).focus = s.focus ∧ (changed h s t).root = s.root := by
  rw [changed_eq]
  split <;> exact ⟨rfl, rfl, rfl, rfl⟩

theorem changed_calls (h : Host) (s : UI) (t : Str) :
    (changed h s t).calls = s.calls ++ selectionCalls h s.calls t := by
  rw [changed_eq]
  unfold selectionCalls
  split <;> simp

theorem clampIndex_of_lt (len i : Nat) (hi : i < len) : clampIndex len (i : Int) = i := by
  unfold clampIndex
  show Int.toNat _ = i
  split_ifs <;> omega

theorem setCurrentItem_frame (h : Host) (s : UI) (index : Int) :
    (setCurrentItem h s index).items = s.items ∧ (setCurrentItem h s index).focus = s.focus ∧
      (setCurrentItem h s index).root = s.root := by
  unfold setCurrentItem
  by_cases hc : clampIndex s.items.length index ≠ s.currentItem
  · simp only [if_pos hc]
    exact ⟨(changed_frame h s _).1, (changed_frame h s _).2.2.1, (changed_frame h s _).2.2.2⟩
  · simp only [if_neg hc]
    exact ⟨trivial, trivial, trivial⟩

theorem setCurrentItem_index (h : Host) (s : UI) (i : Nat) (hi : i < s.items.length) :
    (setCurrentItem h s (i : Int)).currentItem = i := by
  unfold setCurrentItem
  exact clampIndex_of_lt _ _ hi

theorem setCurrentItem_calls (h : Host) (s : UI) (i : Nat) (hi : i < s.items.length)
    (hne : i ≠ s.currentItem) :
    (setCurrentItem h s (i : Int)).calls
      = s.calls ++ selectionCalls h s.calls (s.items.getD i []) := by
  unfold setCurrentItem
  simp only [clampIndex_of_lt _ _ hi, if_pos hne]
  exact changed_calls h s _

theorem listInputHandler_of_ne_zero (h : Host) (s : UI) (r : Char) (hr : r.toNat ≠ 0) :
    listInputHandler h s r = s := by
  unfold listInputHandler
  split_ifs <;> rfl

theorem forward_of_list_focus (h : Host) (s t : UI) (r : Char) (hr : r.toNat ≠ 0)
    (hf : t.focus = Widget.portList) :
    (if rootHasFocus s.root t.focus then
      match s.root with
      | Root.modal _ => modalInputCapture t
      | Root.flex =>
        match t.focus with
        | Widget.portList => listInputHandler h t r
        | _ => t
    else t) = t := by
  rw [hf]
  cases hroot : s.root with
  | flex => simp [rootHasFocus, listInputHandler_of_ne_zero h t r hr]
  | modal g => simp [rootHasFocus]

theorem forward_of_pane_focus (h : Host) (s t : UI) (r : Char)
    (ht : t.focus = Widget.lsofOutput ∨ t.focus = Widget.dockerOutput) :
    (if rootHasFocus s.root t.focus then
      match s.root with
      | Root.modal _ => modalInputCapture t
      | Root.flex =>
        match t.focus with
        | Widget.portList => listInputHandler h t r
        | _ => t
    else t) = t := by
  cases hr : s.root with
  | flex => rcases ht with ht | ht <;> simp [ht, rootHasFocus]
  | modal g => rcases ht with ht | ht <;> simp [ht, rootHasFocus]

theorem handleRune_h (h : Host) (s : UI) :
    handleRune h s 'h' = { s with focus := Widget.portList } := by
  simp [handleRune, appInputCapture]

theorem handleRune_l (h : Host) (s : UI) :
    handleRune h s 'l' = { s with focus := Widget.lsofOutput } := by
  simp [handleRune, appInputCapture]

theorem handleRune_j_list (h : Host) (s : UI) (hf : s.focus = Widget.portList) :
    handleRune h s 'j' =
      if (s.currentItem : Int) < (s.items.length : Int) - 1 then
        setCurrentItem h s ((s.currentItem : Int) + 1)
      else s := by
  have hcap : appInputCapture h s 'j' =
      (true, if (s.currentItem : Int) < (s.items.length : Int) - 1 then
        setCurrentItem h s ((s.currentItem : Int) + 1) else s) := by
    simp [appInputCapture, hf]
    split <;> rfl
  unfold handleRune
  simp only [hcap]
  apply forward_of_list_focus h s _ 'j' (by decide)
  split
  · rw [(setCurrentItem_frame h s _).2.1, hf]
  · exact hf

theorem handleRune_k_list (h : Host) (s : UI) (hf : s.focus = Widget.portList) :
    handleRune h s 'k' =
      if (s.currentItem : Int) > 0 then
        setCurrentItem h s ((s.currentItem : Int) - 1)
      else s := by
  have hcap : appInputCapture h s 'k' =
      (true, if (s.currentItem : Int) > 0 then
        setCurrentItem h s ((s.currentItem : Int) - 1) else s) := by
    simp [appInputCapture, hf]
    split <;> rfl
  unfold handleRune
  simp only [hcap]
  apply forward_of_list_focus h s _ 'k' (by decide)
  split
  · rw [(setCurrentItem_frame h s _).2.1, hf]
  · exact hf

theorem handleRune_j_pane (h : Host) (s : UI) (hf : s.focus ≠ Widget.portList) :
    handleRune h s 'j' = { s with focus := Widget.dockerOutput } := by
  have hcap : appInputCapture h s 'j' = (true, { s with focus := Widget.dockerOutput }) := by
    simp [appInputCapture, hf]
  unfold handleRune
  simp only [hcap]
  exact forward_of_pane_focus h s { s with focus := Widget.dockerOutput } 'j' (Or.inr rfl)

theorem handleRune_k_pane (h : Host) (s : UI) (hf : s.focus ≠ Widget.portList) :
    handleRune h s 'k' = { s with focus := Widget.lsofOutput } := by
  have hcap : appInputCapture h s 'k' = (true, { s with focus := Widget.lsofOutput }) := by
    simp [appInputCapture, hf]
  unfold handleRune
  simp only [hcap]
  exact forward_of_pane_focus h s { s with focus := Widget.lsofOutput } 'k' (Or.inl rfl)

/-! ## Claims about `getPorts` -/

/-- C1, as stated, fails: on a listing that names two ports by service (`http`,
`https`) the enumeration succeeds and `getPorts` returns both names, whose
numeric values are both 0, so the result is not strictly increasing, whatever
the iteration order of the map. -/
theorem getPorts_not_strictly_increasing :
    (listingHost serviceListing MapOrder.insertion).run [] lsofListArgs
        = Except.ok serviceListing ∧
      getPorts (listingHost serviceListing MapOrder.insertion) []
        = some ["http".toList, "https".toList] ∧
      ¬ StrictlyIncreasing ["http".toList, "https".toList] ∧
      getPorts (listingHost serviceListing MapOrder.reversed) []
        = some ["https".toList, "http".toList] ∧
      ¬ StrictlyIncreasing ["https".toList, "http".toList] := by
  refine ⟨rfl, by decide, by decide, by decide, by decide⟩

/-- C1, amended: when the enumeration command succeeds with output `text`
and every row the loop parses has a `:` in its ninth field, `getPorts` returns
a sequence that is non-decreasing in numeric value (the value `strconv.Atoi`
gives, 0 for a port that is not a number), contains each distinct port string
extracted from the matching rows exactly once and nothing else, and is strictly
increasing whenever distinct returned ports have distinct numeric values. -/
theorem getPorts_sorted_distinct (h : Host) (history : List (List Str)) (text : Str)
    (hrun : h.run history lsofListArgs = Except.ok text)
    (hrows : RowsHaveColon text) :
    ∃ out, getPorts h history = some out ∧
      NonDecreasing out ∧
      (∀ p, out.count p = if p ∈ rowPorts text then 1 else 0) ∧
      ((∀ a ∈ out, ∀ b ∈ out, atoi a = atoi b → a = b) → StrictlyIncreasing out) := by
  obtain ⟨out, hout⟩ := getPortsFrom_returns h.mapOrder text hrows
  obtain ⟨hnd, hmem, hsorted⟩ := getPortsFrom_spec _ _ _ hout
  refine ⟨out, ?_, hsorted, ?_, ?_⟩
  · unfold getPorts
    rw [hrun]
    exact hout
  · intro p
    by_cases hp : p ∈ rowPorts text
    · rw [if_pos hp]
      exact count_eq_one_of_nodup out p hnd ((hmem p).mpr hp)
    · rw [if_neg hp]
      exact List.count_eq_zero_of_not_mem (fun hin => hp ((hmem p).mp hin))
  · intro hinj
    have hboth : out.Pairwise (fun a b => atoi a ≤ atoi b ∧ a ≠ b) :=
      List.Pairwise.and hsorted hnd
    refine List.Pairwise.imp_of_mem ?_ hboth
    intro a b ha hb hab
    rcases lt_or_eq_of_le hab.1 with hlt | heq
    · exact hlt
    · exact absurd (hinj a ha b hb heq) hab.2

/-- Witness of `getPorts_sorted_distinct`: a listing with ports 8080 (twice)
and 22, for which `getPorts` returns `22, 8080`. -/
theorem getPorts_sorted_distinct_witness :
    (listingHost numericListing MapOrder.insertion).run [] lsofListArgs
        = Except.ok numericListing ∧
      RowsHaveColon numericListing ∧
      getPorts (listingHost numericListing MapOrder.insertion) []
        = some ["22".toList, "8080".toList] ∧
      ∃ out, getPorts (listingHost numericListing MapOrder.insertion) [] = some out ∧
        NonDecreasing out ∧
        (∀ p, out.count p = if p ∈ rowPorts numericListing then 1 else 0) ∧
        ((∀ a ∈ out, ∀ b ∈ out, atoi a = atoi b → a = b) → StrictlyIncreasing out) :=
  ⟨rfl, by decide, by decide,
    getPorts_sorted_distinct (listingHost numericListing MapOrder.insertion) []
      numericListing rfl (by decide)⟩

/-- C10: the row loop is not total. On a listing with the row
`proxy 7 root 3u IPv4 0x1 0t0 TCP * (LISTEN)` the line contains `*` and has
ten fields, its ninth field `*` splits on `:` into a single part, the index
`[1]` is out of range and `getPorts` panics instead of returning. -/
theorem getPorts_index_out_of_range :
    contains "proxy 7 root 3u IPv4 0x1 0t0 TCP * (LISTEN)".toList "*".toList = true ∧
      (fields "proxy 7 root 3u IPv4 0x1 0t0 TCP * (LISTEN)".toList).length = 10 ∧
      split ':' ((fields "proxy 7 root 3u IPv4 0x1 0t0 TCP * (LISTEN)".toList).getD 8 [])
        = ["*".toList] ∧
      portOfLine "proxy 7 root 3u IPv4 0x1 0t0 TCP * (LISTEN)".toList = none ∧
      getPorts (listingHost colonlessListing MapOrder.insertion) [] = none := by
  refine ⟨by decide, by decide, by decide, by decide, by decide⟩

/-! ## Claim about `isDockerProcess` -/

/-- C2: for every text, `isDockerProcess` answers true if and only if the
marker `docker` appears in the text under case-insensitive comparison; it
answers false on the empty text and on `dock er`, true on the mixed-case
occurrences `DoCkEr` and `DOCKER-pr`, and true when the `k` is written with the
Kelvin sign, the third case form of that letter. -/
theorem isDockerProcess_iff (h : Host) (text : Str) :
    (isDockerProcess h text = true ↔ AppearsIgnoringCase "docker".toList text) ∧
      isDockerProcess h [] = false ∧
      isDockerProcess h "DoCkEr".toList = true ∧
      isDockerProcess h "DOCKER-pr 9 root".toList = true ∧
      isDockerProcess h "dock er".toList = false ∧
      isDockerProcess h ['d', 'o', 'c', kelvinSign, 'e', 'r'] = true := by
  have hiff : ∀ t : Str,
      isDockerProcess h t = true ↔ AppearsIgnoringCase "docker".toList t := by
    intro t
    unfold isDockerProcess AppearsIgnoringCase
    rw [contains_iff_occurs, toLower_eq_map]
    change "docker".toList <:+: _ ↔ _
    constructor
    · rintro ⟨a, b, hab⟩
      obtain ⟨l1, post, hl, h1, _⟩ := List.map_eq_append_iff.mp hab.symm
      obtain ⟨pre, w, hl1, _, hw⟩ := List.map_eq_append_iff.mp h1
      refine ⟨pre, w, post, by rw [hl, hl1], ?_⟩
      exact (map_eq_marker_iff h.lowerTable w _ (fun m hm => hm)).mp hw
    · rintro ⟨pre, w, post, ht, hw⟩
      have hmap := (map_eq_marker_iff h.lowerTable w _ (fun m hm => hm)).mpr hw
      refine ⟨pre.map (unicodeToLower h.lowerTable.lower),
        post.map (unicodeToLower h.lowerTable.lower), ?_⟩
      rw [ht, List.map_append, List.map_append, hmap]
      rfl
  refine ⟨hiff text, rfl, rfl, rfl, rfl, ?_⟩
  refine (hiff _).mpr ⟨[], ['d', 'o', 'c', kelvinSign, 'e', 'r'], [], rfl, ?_⟩
  show List.Forall₂ _ _ ['d', 'o', 'c', 'k', 'e', 'r']
  exact List.Forall₂.cons (by decide) (List.Forall₂.cons (by decide)
    (List.Forall₂.cons (by decide) (List.Forall₂.cons (by decide)
    (List.Forall₂.cons (by decide) (List.Forall₂.cons (by decide) List.Forall₂.nil)))))

/-! ## Claim about `stripAnsiCodes` -/

/-- C5, as stated, fails: from the pane text `ESC [ ESC [ 0 m 0 m` the single
pass removes the inner sequence `ESC [ 0 m`, and what is left and handed to
the clipboard by the copy action, `ESC [ 0 m`, is an escape sequence. -/
theorem stripAnsiCodes_leaves_code :
    stripAnsiCodes "\x1b[\x1b[0m0m".toList = "\x1b[0m".toList ∧
      HasAnsiCode (stripAnsiCodes "\x1b[\x1b[0m0m".toList) ∧
      focusedText (paneUI "\x1b[\x1b[0m0m".toList) = some "\x1b[\x1b[0m0m".toList ∧
      (appInputCapture failingHost (paneUI "\x1b[\x1b[0m0m".toList) 'c').2.clipboard
        = ["\x1b[0m".toList] := by
  have hout : stripAnsiCodes "\x1b[\x1b[0m0m".toList = "\x1b[0m".toList := by decide
  refine ⟨hout, ?_, rfl, by decide⟩
  rw [hout]
  exact ⟨[], "\x1b[0m".toList, [], rfl, ['0'], rfl, by decide⟩

/-- C5, amended: when the focused primitive is a text view with text `raw`,
the copy action hands `stripAnsiCodes raw` to the clipboard; and for every
pane text in which no unterminated start of an escape sequence (ESC alone, or
ESC `[` followed by digits and semicolons) stands immediately before an escape
sequence, that text contains no escape sequence. -/
theorem stripAnsiCodes_clean (h : Host) (s : UI) (raw : Str)
    (hfocus : focusedText s = some raw) (hwf : NoStartBeforeCode raw) :
    (appInputCapture h s 'c').2.clipboard = s.clipboard ++ [stripAnsiCodes raw] ∧
      ¬ HasAnsiCode (stripAnsiCodes raw) := by
  constructor
  · have hcap : appInputCapture h s 'c' =
        (match h.clipboardWrite (stripAnsiCodes raw) with
          | some err =>
            (true, showModal { s with clipboard := s.clipboard ++ [stripAnsiCodes raw] }
              ("Error copying to clipboard: \n".toList ++ err) "Clipboard Error".toList)
          | none =>
            (true, showModal { s with clipboard := s.clipboard ++ [stripAnsiCodes raw] }
              "Copied to clipboard".toList "Clipboard".toList)) := by
      simp [appInputCapture, hfocus]
    rw [hcap]
    cases h.clipboardWrite (stripAnsiCodes raw) <;> rfl
  · rintro ⟨pre, w, post, hsplit, hcode⟩
    have hnone := no_match_in_stripAux raw.length raw (Nat.le_refl _) hwf pre (w ++ post)
      (by rw [← List.append_assoc]; exact hsplit)
    rw [matchLen_of_code w post hcode] at hnone
    exact absurd hnone (by simp)

/-- Witness of `stripAnsiCodes_clean`: a pane text with two colour codes, an
erase-line sequence and a trailing ESC. -/
theorem stripAnsiCodes_clean_witness :
    focusedText (paneUI "a\x1b[1;31mbc\x1b[0m \x1b[0K\x1b".toList)
        = some "a\x1b[1;31mbc\x1b[0m \x1b[0K\x1b".toList ∧
      NoStartBeforeCode "a\x1b[1;31mbc\x1b[0m \x1b[0K\x1b".toList ∧
      (appInputCapture failingHost (paneUI "a\x1b[1;31mbc\x1b[0m \x1b[0K\x1b".toList)
          'c').2.clipboard
        = (paneUI "a\x1b[1;31mbc\x1b[0m \x1b[0K\x1b".toList).clipboard
          ++ [stripAnsiCodes "a\x1b[1;31mbc\x1b[0m \x1b[0K\x1b".toList] ∧
      ¬ HasAnsiCode (stripAnsiCodes "a\x1b[1;31mbc\x1b[0m \x1b[0K\x1b".toList) :=
  ⟨rfl, noStart_of_check _ (by decide),
    stripAnsiCodes_clean failingHost (paneUI "a\x1b[1;31mbc\x1b[0m \x1b[0K\x1b".toList)
      "a\x1b[1;31mbc\x1b[0m \x1b[0K\x1b".toList rfl (noStart_of_check _ (by decide))⟩

/-! ## Claims about the selection handler -/

/-- C3: for every selected port, the changed handler shows the inspection
text in the process pane and invokes the container resolver exactly when
`isDockerProcess` holds of that text: then the only commands run are the
inspection and one `docker ps -a --filter publish=<port>`, and the container
pane shows what `getDockerInfo` returned; otherwise the only command run is
the inspection and the container pane shows `Not a Docker process`. -/
theorem changed_resolves_iff_docker (h : Host) (s : UI) (port : Str) :
    (getLsofOutput h s port).1 = inspectionText h s.calls port ∧
      (changed h s port).lsofText = inspectionText h s.calls port ∧
      (if isDockerProcess h (inspectionText h s.calls port) = true then
        (changed h s port).calls = s.calls ++ [lsofPortArgs port,
          ["docker".toList, "ps".toList, "-a".toList, "--filter".toList,
            "publish=".toList ++ port]] ∧
        (changed h s port).dockerText
          = (getDockerInfo h { s with calls := s.calls ++ [lsofPortArgs port] } port).1
      else
        (changed h s port).calls = s.calls ++ [lsofPortArgs port] ∧
        (changed h s port).dockerText = "Not a Docker process".toList) := by
  refine ⟨by rw [getLsofOutput_eq], ?_, ?_⟩
  · rw [changed_eq]
    split <;> rfl
  · rw [changed_eq, getDockerInfo_eq]
    split
    · refine ⟨?_, rfl⟩
      show s.calls ++ [lsofPortArgs port] ++ [dockerArgs port] = _
      rw [List.append_assoc]
      rfl
    · exact ⟨rfl, rfl⟩

/-- C4, as stated, fails: when the enumeration fails, the list holds the
spacer and the error placeholder, and the initial selection of index 1 runs
the inspection command on the placeholder text; and from the initial selection
on a host with one port, `k` selects the spacer and runs the inspection command
on the empty text. -/
theorem placeholder_selection_inspects :
    getPorts failingHost [] = some ["Error fetching ports: exit status 1".toList] ∧
      (startup failingHost).map (fun s => s.items)
        = some [[], "Error fetching ports: exit status 1".toList] ∧
      (startup failingHost).map (fun s => s.currentItem) = some 1 ∧
      (startup failingHost).map (fun s => s.calls)
        = some [lsofListArgs, lsofPortArgs "Error fetching ports: exit status 1".toList] ∧
      (startup dockerHost).map (fun s => (handleRune dockerHost s 'k').currentItem) = some 0 ∧
      (startup dockerHost).map (fun s => (handleRune dockerHost s 'k').calls)
        = some [lsofListArgs, lsofPortArgs "8080".toList, dockerArgs "8080".toList,
            lsofPortArgs []] := by
  refine ⟨by decide, by decide, by decide, by decide, by decide, by decide⟩

/-- C4, amended: for every list built at startup, the list is the blank spacer
followed by the entries of `getPorts`; the initial selection of index 1 runs
the handler on the entry at index 1 (the first port, or the error placeholder
when enumeration failed) and runs nothing only when no port was found; and any
later selection change onto an entry, spacer and placeholder included, runs one
inspection command on that entry's text, followed by one container listing
exactly when the inspection text is Docker-related. -/
theorem startup_selection_calls (h : Host) (ports : List Str)
    (hp : getPorts h [] = some ports) :
    ∃ s0, startup h = some s0 ∧ s0.items = [] :: ports ∧
      s0.calls = lsofListArgs :: firstSelectionCalls h ports ∧
      ∀ (s : UI) (i : Nat), i < s.items.length → i ≠ s.currentItem →
        (setCurrentItem h s (i : Int)).calls
          = s.calls ++ selectionCalls h s.calls (s.items.getD i []) := by
  unfold startup
  rw [hp]
  refine ⟨_, rfl, (setCurrentItem_frame h _ 1).1, ?_, fun s i hi hne =>
    setCurrentItem_calls h s i hi hne⟩
  cases ports with
  | nil =>
    unfold setCurrentItem
    rfl
  | cons p ps =>
    have := setCurrentItem_calls h
      { items := [] :: p :: ps, currentItem := 0, lsofText := [], dockerText := [],
        modalCount := 0, modalText := [], modalTitle := [], root := Root.flex,
        focus := Widget.portList, clipboard := [], calls := [lsofListArgs],
        stopped := false } 1 (by simp) (by simp)
    simpa using this

/-- Witness of `startup_selection_calls`: the host on which every command
fails. -/
theorem startup_selection_calls_witness :
    ∃ s0, startup failingHost = some s0 ∧
      s0.items = [] :: ["Error fetching ports: exit status 1".toList] ∧
      s0.calls = lsofListArgs ::
        firstSelectionCalls failingHost ["Error fetching ports: exit status 1".toList] ∧
      ∀ (s : UI) (i : Nat), i < s.items.length → i ≠ s.currentItem →
        (setCurrentItem failingHost s (i : Int)).calls
          = s.calls ++ selectionCalls failingHost s.calls (s.items.getD i []) :=
  startup_selection_calls failingHost ["Error fetching ports: exit status 1".toList]
    (by decide)

/-! ## Claims about the keys -/

/-- C6: with a notification showing, the key `h` does not dismiss it. On the
state reached by `l` then `c` from startup, the notification is the root and
its text view has the focus; `h` is taken by the application's input capture,
which moves the focus to the port list and drops the event, so the
notification stays the root; `j` likewise leaves it showing and moves the focus
to the container pane; a key the capture does not handle, such as `x`, does
dismiss it. -/
theorem modal_survives_focus_key :
    afterCopy.map modalVisible = some true ∧
      afterCopy.map (fun s => s.focus) = some (Widget.modalText 1) ∧
      afterCopy.map (fun s => modalVisible (handleRune dockerHost s 'h')) = some true ∧
      afterCopy.map (fun s => (handleRune dockerHost s 'h').focus) = some Widget.portList ∧
      afterCopy.map (fun s => modalVisible (handleRune dockerHost s 'j')) = some true ∧
      afterCopy.map (fun s => (handleRune dockerHost s 'j').focus)
        = some Widget.dockerOutput ∧
      afterCopy.map (fun s => modalVisible (handleRune dockerHost s 'x')) = some false := by
  refine ⟨by decide, by decide, by decide, by decide, by decide, by decide, by decide⟩

/-- C7: with the focus on the port list and a valid current index, `j`
advances the index by exactly one when it is below the last entry and leaves
it unchanged at the last entry; the index stays at most `itemCount - 1` and the
list itself is unchanged. -/
theorem moveNext_index (h : Host) (s : UI) (hf : s.focus = Widget.portList)
    (hv : s.currentItem < s.items.length) :
    (handleRune h s 'j').currentItem
        = (if s.currentItem + 1 < s.items.length then s.currentItem + 1 else s.currentItem) ∧
      (handleRune h s 'j').currentItem ≤ s.items.length - 1 ∧
      (handleRune h s 'j').items = s.items := by
  rw [handleRune_j_list h s hf]
  by_cases hlt : s.currentItem + 1 < s.items.length
  · have hc : (s.currentItem : Int) < (s.items.length : Int) - 1 := by omega
    have hcast : (s.currentItem : Int) + 1 = ((s.currentItem + 1 : Nat) : Int) := by
      push_cast; rfl
    rw [if_pos hc, if_pos hlt, hcast, setCurrentItem_index h s _ hlt]
    exact ⟨rfl, by omega, (setCurrentItem_frame h s _).1⟩
  · have hc : ¬ (s.currentItem : Int) < (s.items.length : Int) - 1 := by omega
    rw [if_neg hc, if_neg hlt]
    exact ⟨rfl, by omega, rfl⟩

/-- Witness of `moveNext_index`: the sample state, index 1 of 4 entries. -/
theorem moveNext_index_witness :
    (handleRune failingHost sampleUI 'j').currentItem
        = (if sampleUI.currentItem + 1 < sampleUI.items.length then sampleUI.currentItem + 1
            else sampleUI.currentItem) ∧
      (handleRune failingHost sampleUI 'j').currentItem ≤ sampleUI.items.length - 1 ∧
      (handleRune failingHost sampleUI 'j').items = sampleUI.items :=
  moveNext_index failingHost sampleUI rfl (by decide)

/-- C8, as stated, fails: on a host with the single port 8080 the initial
selection is index 1 with the port list focused, and `k` makes the current
index 0, the blank spacer. -/
theorem movePrevious_reaches_spacer :
    (startup dockerHost).map (fun s => (s.items, s.currentItem, s.focus))
        = some ([[], "8080".toList], 1, Widget.portList) ∧
      (startup dockerHost).map (fun s => (handleRune dockerHost s 'k').currentItem)
        = some 0 ∧
      (startup dockerHost).map (fun s => (handleRune dockerHost s 'k').items.getD 0 ['?'])
        = some [] := by
  refine ⟨by decide, by decide, by decide⟩

/-- C8, amended: with the focus on the port list and a valid current index,
`k` is clamped at index 0: from an index above 0 the current index decreases
by exactly one (from index 1 it becomes 0, the blank spacer), at index 0 it is
left unchanged, and the list itself is unchanged. -/
theorem movePrevious_index (h : Host) (s : UI) (hf : s.focus = Widget.portList)
    (hv : s.currentItem < s.items.length) :
    (handleRune h s 'k').currentItem
        = (if 0 < s.currentItem then s.currentItem - 1 else s.currentItem) ∧
      (handleRune h s 'k').items = s.items := by
  rw [handleRune_k_list h s hf]
  by_cases hpos : 0 < s.currentItem
  · have hc : (s.currentItem : Int) > 0 := by omega
    have hcast : (s.currentItem : Int) - 1 = ((s.currentItem - 1 : Nat) : Int) := by omega
    rw [if_pos hc, if_pos hpos, hcast, setCurrentItem_index h s _ (by omega)]
    exact ⟨rfl, (setCurrentItem_frame h s _).1⟩
  · have hc : ¬ (s.currentItem : Int) > 0 := by omega
    rw [if_neg hc, if_neg hpos]
    exact ⟨rfl, rfl⟩

/-- Witness of `movePrevious_index`: the sample state, index 1 of 4 entries. -/
theorem movePrevious_index_witness :
    (handleRune failingHost sampleUI 'k').currentItem
        = (if 0 < sampleUI.currentItem then sampleUI.currentItem - 1
            else sampleUI.currentItem) ∧
      (handleRune failingHost sampleUI 'k').items = sampleUI.items :=
  movePrevious_index failingHost sampleUI rfl (by decide)

/-- C9: for every state, whatever has the focus, the focus after `h` is the
port list, after `l` the process pane, after `j` the port list if it was
focused and the container pane otherwise, after `k` the port list if it was
focused and the process pane otherwise; and either the port list is focused,
or `j` and `k` leave the current index unchanged. -/
theorem focus_after_navigation (h : Host) (s : UI) :
    (handleRune h s 'h').focus = Widget.portList ∧
      (handleRune h s 'l').focus = Widget.lsofOutput ∧
      (handleRune h s 'j').focus
        = (if s.focus = Widget.portList then Widget.portList else Widget.dockerOutput) ∧
      (handleRune h s 'k').focus
        = (if s.focus = Widget.portList then Widget.portList else Widget.lsofOutput) ∧
      (s.focus = Widget.portList ∨
        ((handleRune h s 'j').currentItem = s.currentItem ∧
          (handleRune h s 'k').currentItem = s.currentItem)) := by
  refine ⟨by rw [handleRune_h], by rw [handleRune_l], ?_, ?_, ?_⟩
  · by_cases hf : s.focus = Widget.portList
    · rw [if_pos hf, handleRune_j_list h s hf]
      split
      · rw [(setCurrentItem_frame h s _).2.1, hf]
      · exact hf
    · rw [if_neg hf, handleRune_j_pane h s hf]
  · by_cases hf : s.focus = Widget.portList
    · rw [if_pos hf, handleRune_k_list h s hf]
      split
      · rw [(setCurrentItem_frame h s _).2.1, hf]
      · exact hf
    · rw [if_neg hf, handleRune_k_pane h s hf]
  · by_cases hf : s.focus = Widget.portList
    · exact Or.inl hf
    · exact Or.inr ⟨by rw [handleRune_j_pane h s hf], by rw [handleRune_k_pane h s hf]⟩

end PortMonitor
